import Mathlib

/-!
Verification development for osgEarth's `LandCoverLayer.cpp` land-cover
tile compositing engine. Floating-point texel values and coordinates are
embedded as exact rationals; machine `int` values as `Int`, sizes as `Nat`.
-/

namespace LandCover

/-- Modelled from the spec: the reserved no-data floating value used for
coverage texels and for the 32-bit output sentinel. It is an external
header constant (`NO_DATA_VALUE`), not defined in this translation unit;
the spec describes it only as "a distinguished reserved floating value". -/
def NO_DATA_VALUE : ℚ := -32767

/-- Truncation toward zero, the semantics of a C `(int)` cast applied to a
non-NaN floating value. -/
def truncInt (q : ℚ) : ℤ := if 0 ≤ q then ⌊q⌋ else ⌈q⌉

/-- `typedef std::vector<int> CodeMap;` — vector index is the source code,
value is the destination (dictionary) code, `-1` = unmapped. -/
abbrev CodeMap := List ℤ

/-- Modelled from the spec: a tile address in the external quad-subdivided
addressing scheme (osgEarth `TileKey`): level-of-detail, column, row. -/
structure TileKey where
  lod : ℕ
  x : ℕ
  y : ℕ
deriving DecidableEq

/-- Modelled from the spec: the addressing scheme's root extent
(axis-aligned; children nested in parents). -/
structure Profile where
  x0 : ℚ
  y0 : ℚ
  w : ℚ
  h : ℚ

/-- Modelled from the spec: the parent function of the addressing scheme;
the parent of a level-0 key is invalid (`none`), otherwise one level up
with halved column/row. -/
def TileKey.createParentKey (k : TileKey) : Option TileKey :=
  if k.lod = 0 then none else some ⟨k.lod - 1, k.x / 2, k.y / 2⟩

/-- Iterated parent: the `d`-th ancestor of a key, when it exists. -/
def parentIter : ℕ → TileKey → Option TileKey
  | 0, k => some k
  | d + 1, k =>
    match k.createParentKey with
    | none => none
    | some p => parentIter d p

/-- Modelled from the spec: extent width of a tile at the key's level. -/
def TileKey.extentWidth (P : Profile) (k : TileKey) : ℚ := P.w / 2 ^ k.lod

/-- Modelled from the spec: extent height of a tile at the key's level. -/
def TileKey.extentHeight (P : Profile) (k : TileKey) : ℚ := P.h / 2 ^ k.lod

/-- Modelled from the spec: west edge of the key's extent. -/
def TileKey.extentXMin (P : Profile) (k : TileKey) : ℚ :=
  P.x0 + (k.x : ℚ) * (P.w / 2 ^ k.lod)

/-- Modelled from the spec: south edge of the key's extent. -/
def TileKey.extentYMin (P : Profile) (k : TileKey) : ℚ :=
  P.y0 + (k.y : ℚ) * (P.h / 2 ^ k.lod)

/-- A `GeoImage`: raster sample access (already nearest-neighbor, per
`read->setBilinear(false)`) together with its geospatial extent. -/
structure GeoImage where
  sample : ℚ → ℚ → ℚ
  extXMin : ℚ
  extYMin : ℚ
  extWidth : ℚ
  extHeight : ℚ

/-- The interface of one coverage's source `ImageLayer` as used by
`ILayer::load`: enabled/visible flags, the legal-range test, and the
image provider `createImage` (external I/O, `none` = no image). -/
structure CoverageSource where
  enabled : Bool
  visible : Bool
  inLegalRange : TileKey → Bool
  createImage : TileKey → Option GeoImage

/-- The `ILayer` struct after `load`: validity, the affine transform from
requested-tile unit coordinates to image unit coordinates, and the pixel
reader. Failed loads keep the constructor defaults
(`valid=false` after load, `scale=1`, `bias=(0,0)`). -/
structure ILayer where
  valid : Bool
  scale : ℚ
  biasX : ℚ
  biasY : ℚ
  read : ℚ → ℚ → ℚ

/-- The ancestor walk of `ILayer::load`:
`for(TileKey k = key; k.valid() && !image.valid(); k = k.createParentKey())
image = sourceLayer->createImage(k, progress);`
returning the resolved key and image, or `none` when no ancestor yields an
image (the parent of a level-0 key is invalid, ending the loop). -/
def climb (provider : TileKey → Option GeoImage) (k : TileKey) :
    Option (TileKey × GeoImage) :=
  match provider k with
  | some img => some (k, img)
  | none =>
    if h : k.lod = 0 then none
    else climb provider ⟨k.lod - 1, k.x / 2, k.y / 2⟩
termination_by k.lod
decreasing_by simp_all; omega

/-- The provider calls issued by the ancestor walk, in order. -/
def climbCalls (provider : TileKey → Option GeoImage) (k : TileKey) :
    List TileKey :=
  match provider k with
  | some _ => [k]
  | none =>
    if h : k.lod = 0 then [k]
    else k :: climbCalls provider ⟨k.lod - 1, k.x / 2, k.y / 2⟩
termination_by k.lod
decreasing_by simp_all; omega

/-- `ILayer::load`: guarded by
`sourceLayer->getEnabled() && sourceLayer->getVisible() &&
sourceLayer->isKeyInLegalRange(key)`, then the ancestor walk; on success
`scale = key.extent.width / image.extent.width`,
`bias.x = (key.extent.xMin - image.extent.xMin) / image.extent.width`,
`bias.y = (key.extent.yMin - image.extent.yMin) / image.extent.height`. -/
def ILayer.load (src : CoverageSource) (P : Profile) (key : TileKey) : ILayer :=
  match
    (if src.enabled && src.visible && src.inLegalRange key
     then climb src.createImage key else none) with
  | none => { valid := false, scale := 1, biasX := 0, biasY := 0, read := fun _ _ => 0 }
  | some (_, img) =>
    { valid := true
      scale := key.extentWidth P / img.extWidth
      biasX := (key.extentXMin P - img.extXMin) / img.extWidth
      biasY := (key.extentYMin P - img.extYMin) / img.extHeight
      read := img.sample }

/-- The provider calls issued by `ILayer::load` (empty when the
enabled/visible/legal-range guard fails: no I/O happens). -/
def loadCalls (src : CoverageSource) (key : TileKey) : List TileKey :=
  if src.enabled && src.visible && src.inLegalRange key
  then climbCalls src.createImage key else []

/-- A mapping entry of a coverage: raw value and land-cover class name. -/
structure LandCoverValueMapping where
  value : ℤ
  className : String
deriving DecidableEq

/-- Modelled from the spec: the external dictionary, resolving a class
name to its canonical code (`getClass` composed with `getValue`). -/
abbrev Dictionary := String → Option ℤ

/-- `buildCodeMap`: with no dictionary the function returns early and the
code map is left as it was (empty, since `_codemaps` entries start empty).
Otherwise: `highestValue` folded from 0 over the mappings, the map
assigned to `highestValue+1` copies of `-1`, then each mapping whose class
name resolves sets `codemap[value]` to the class's canonical code. -/
def buildCodeMap (dict : Option Dictionary)
    (mappings : List LandCoverValueMapping) : CodeMap :=
  match dict with
  | none => []
  | some d =>
    let highestValue :=
      mappings.foldl (fun hv m => if m.value > hv then m.value else hv) 0
    let base : CodeMap := List.replicate (highestValue + 1).toNat (-1)
    mappings.foldl
      (fun cm m =>
        match d m.className with
        | some code => cm.set m.value.toNat code
        | none => cm)
      base

/-- `_codemaps` right after `initialize`: one default-constructed (empty)
code map per successfully opened coverage; nothing is filled in until
`setDictionary` runs. -/
def initialCodemaps (n : ℕ) : List CodeMap := List.replicate n []

/-- The shared tail of both decode branches: bounds-check the decoded code
against the code map (the source compares a signed `int` against the
unsigned `size()`, so a negative code fails the check), read the entry,
and commit it only when it is non-negative (mapped). -/
def lookupCommit (codemap : CodeMap) (code : ℤ) : Option ℚ :=
  if 0 ≤ code ∧ code.toNat < codemap.length then
    let value := codemap.getD code.toNat (-1)
    if 0 ≤ value then some (value : ℚ) else none
  else none

/-- The decode of a non-no-data texel, as performed inline in
`createImage`: `texel.r() < 1.0f` selects the normalized branch
`(int)(texel.r()*255.0f)`, otherwise the unnormalized branch
`(int)texel.r()`; the C `(int)` cast truncates toward zero. -/
def decode (texel : ℚ) : ℤ :=
  if texel < 1 then truncInt (texel * 255) else truncInt texel

/-- Modelled from the spec: the decode step as the spec words it, with
`round` in place of the source's `(int)` casts — stated only to be
compared against `decode`. -/
def decodeSpec (texel : ℚ) : ℤ :=
  if texel < 1 then round (texel * 255) else round texel

/-- The body of the per-coverage step of the pixel loop (lines 325-376):
skip invalid layers, map `(u,v)` through the affine transform, require the
mapped coordinate inside `[0,1]²`, sample, skip no-data, then decode and
translate through the code map in the branch-specific way of the source.
`some c` = the pixel is written with `c`; `none` = fall through. -/
def tryLayer (layer : ILayer) (codemap : CodeMap) (u v : ℚ) : Option ℚ :=
  if layer.valid = false then none
  else
    let covX := layer.scale * u + layer.biasX
    let covY := layer.scale * v + layer.biasY
    if 0 ≤ covX ∧ covX ≤ 1 ∧ 0 ≤ covY ∧ covY ≤ 1 then
      let texel := layer.read covX covY
      if texel ≠ NO_DATA_VALUE then
        if texel < 1 then
          -- normalized code; convert
          let code := truncInt (texel * 255)
          if 0 ≤ code ∧ code.toNat < codemap.length then
            let value := codemap.getD code.toNat (-1)
            if 0 ≤ value then some (value : ℚ) else none
          else none
        else
          -- unnormalized
          let code := truncInt texel
          if (0 ≤ code ∧ code.toNat < codemap.length) ∧
              0 ≤ codemap.getD code.toNat (-1) then
            some ((codemap.getD code.toNat (-1) : ℤ) : ℚ)
          else none
      else none
    else none

/-- The priority scan
`for(int L = layers.size()-1; L >= 0 && !wrotePixel; --L)`:
the list is in storage order (index 0 first), the scan starts at the
highest index, and the first coverage that writes wins. Layers are paired
with their code maps (`layers[L]` with `_codemaps[L]`). -/
def scanPixel : List (ILayer × CodeMap) → ℚ → ℚ → Option ℚ
  | [], _, _ => none
  | (layer, cm) :: rest, u, v =>
    match scanPixel rest u v with
    | some val => some val
    | none => tryLayer layer cm u v

/-- The no-data sentinel written for pixels no coverage claims:
`options().bits().isSetTo(16u)` selects `GL_LUMINANCE16F_ARB` and the
sentinel `-32768`; any other configuration selects the 32-bit format and
`NO_DATA_VALUE`. -/
def nodataFor (bits : Option ℕ) : ℚ :=
  if bits = some 16 then -32768 else NO_DATA_VALUE

/-- The value written at one output pixel: the scan's committed value, or
the precision-specific no-data sentinel when `!wrotePixel`. -/
def compositePixel (pairs : List (ILayer × CodeMap)) (bits : Option ℕ)
    (u v : ℚ) : ℚ :=
  match scanPixel pairs u v with
  | some val => val
  | none => nodataFor bits

/-- The accumulating sample loop `for(float u=0.0f; u<=1.0f; u+=du)`,
embedded over exact rationals, with fuel bounding the iteration count. -/
def sampleLoop (du : ℚ) : ℚ → ℕ → List ℚ
  | _, 0 => []
  | u, fuel + 1 => if u ≤ 1 then u :: sampleLoop du (u + du) fuel else []

/-- The sample positions visited by the pixel loop of `createImage` for a
`tilesize × tilesize` output: step `du = 1/(tilesize-1)`, from `0` while
`u ≤ 1`. Fuel `tilesize+1` is enough: the loop stops by itself. -/
def uSamples (tilesize : ℕ) : List ℚ :=
  sampleLoop (1 / ((tilesize : ℚ) - 1)) 0 (tilesize + 1)

/-- The full output raster as a list of `(u, v, value)` triples, `u` the
outer loop and `v` the inner loop, one triple per write. -/
def compositeRaster (pairs : List (ILayer × CodeMap)) (bits : Option ℕ)
    (tilesize : ℕ) : List (ℚ × ℚ × ℚ) :=
  (uSamples tilesize).flatMap fun u =>
    (uSamples tilesize).map fun v => (u, v, compositePixel pairs bits u v)

/-- `LandCoverTileSource::createImage`: `if (_coverages.empty()) return 0L;`
then loads one `ILayer` per coverage (lazily in the source, but the load
is deterministic, so loading up front yields the same raster) and runs the
pixel loops. `coverages` and `codemaps` are the parallel vectors
`_coverages` and `_codemaps`. -/
def createImage (P : Profile) (coverages : List CoverageSource)
    (codemaps : List CodeMap) (bits : Option ℕ) (tilesize : ℕ)
    (key : TileKey) : Option (List (ℚ × ℚ × ℚ)) :=
  if coverages.isEmpty then none
  else
    some (compositeRaster
      ((coverages.map fun c => ILayer.load c P key).zip codemaps)
      bits tilesize)

/-- A loaded layer covering the whole tile whose raster reads a constant
value everywhere — the identity transform, for concrete scenarios. -/
def constLayer (val : ℚ) : ILayer :=
  { valid := true, scale := 1, biasX := 0, biasY := 0, read := fun _ _ => val }

/-- A code map sending raw code 1 to 7 (a high-priority coverage). -/
def cmHigh7 : CodeMap := [-1, 7]

/-- A code map sending raw code 1 to 99 (a low-priority coverage). -/
def cmLow99 : CodeMap := [-1, 99]

/-- A code map of length 2 with no mapped entries at all. -/
def cmUnmapped : CodeMap := [-1, -1]

/-- A code map with entries at raw codes 5 and 6 (for decode scenarios). -/
def cmFiveSix : CodeMap := [-1, -1, -1, -1, -1, 50, 60]

/-- A concrete image of the root tile of the unit profile. -/
def unitImage : GeoImage :=
  { sample := fun _ _ => 1, extXMin := 0, extYMin := 0, extWidth := 1, extHeight := 1 }

/-- A coverage that is enabled and everywhere in range, with an image for
every key, but not visible. -/
def covInvisible : CoverageSource :=
  { enabled := true, visible := false, inLegalRange := fun _ => true
    createImage := fun _ => some unitImage }

/-- The same coverage with the visible flag on. -/
def covVisible : CoverageSource :=
  { enabled := true, visible := true, inLegalRange := fun _ => true
    createImage := fun _ => some unitImage }

/-- A coverage with an image only for the root tile, whose extent data is
the root tile's extent in the unit profile. -/
def covRootOnly : CoverageSource :=
  { enabled := true, visible := true, inLegalRange := fun _ => true
    createImage := fun k =>
      if k.lod = 0 ∧ k.x = 0 ∧ k.y = 0 then some unitImage else none }

/-- A level-1 child tile address (upper column 0, row 1). -/
def childKey : TileKey := ⟨1, 0, 1⟩

/-- A concrete dictionary resolving only the class name "forest". -/
def dict0 : Dictionary := fun s => if s = "forest" then some 12 else none

/-- Concrete mappings: raw 5 resolves, raw 2 has an unknown class name. -/
def ms0 : List LandCoverValueMapping := [⟨5, "forest"⟩, ⟨2, "bogus"⟩]

/-- The unit profile: root extent `[0,1] × [0,1]`. -/
def P0 : Profile := { x0 := 0, y0 := 0, w := 1, h := 1 }

/-- The root tile address. -/
def rootKey : TileKey := ⟨0, 0, 0⟩

/- ## Helper lemmas -/

theorem scanPixel_eq_none_of (pairs : List (ILayer × CodeMap)) (u v : ℚ)
    (h : ∀ p ∈ pairs, tryLayer p.1 p.2 u v = none) :
    scanPixel pairs u v = none := by
  induction pairs with
  | nil => rfl
  | cons p rest ih =>
    obtain ⟨layer, cm⟩ := p
    have h1 : scanPixel rest u v = none := ih fun q hq => h q (List.mem_cons_of_mem _ hq)
    have h2 : tryLayer layer cm u v = none := h (layer, cm) (List.mem_cons_self _ _)
    simp [scanPixel, h1, h2]

theorem scanPixel_cons (layer : ILayer) (cm : CodeMap)
    (rest : List (ILayer × CodeMap)) (u v : ℚ) :
    scanPixel ((layer, cm) :: rest) u v =
      match scanPixel rest u v with
      | some val => some val
      | none => tryLayer layer cm u v := rfl

theorem scanPixel_append (xs ys : List (ILayer × CodeMap)) (u v : ℚ) :
    scanPixel (xs ++ ys) u v =
      match scanPixel ys u v with
      | some c => some c
      | none => scanPixel xs u v := by
  induction xs with
  | nil =>
    simp only [List.nil_append]
    cases scanPixel ys u v <;> simp [scanPixel]
  | cons p rest ih =>
    obtain ⟨layer, cm⟩ := p
    rw [List.cons_append, scanPixel_cons, ih, scanPixel_cons]
    cases scanPixel ys u v <;> cases scanPixel rest u v <;> rfl

theorem tryLayer_empty_map (layer : ILayer) (u v : ℚ) :
    tryLayer layer [] u v = none := by
  unfold tryLayer
  split_ifs <;> simp_all

theorem tryLayer_eq_commit (layer : ILayer) (cm : CodeMap) (u v : ℚ) :
    tryLayer layer cm u v =
      if layer.valid = false then none
      else
        if 0 ≤ layer.scale * u + layer.biasX ∧ layer.scale * u + layer.biasX ≤ 1 ∧
            0 ≤ layer.scale * v + layer.biasY ∧ layer.scale * v + layer.biasY ≤ 1 then
          if layer.read (layer.scale * u + layer.biasX) (layer.scale * v + layer.biasY)
              ≠ NO_DATA_VALUE then
            lookupCommit cm
              (decode (layer.read (layer.scale * u + layer.biasX)
                (layer.scale * v + layer.biasY)))
          else none
        else none := by
  simp only [tryLayer, lookupCommit, decode]
  by_cases h1 : layer.valid = false
  · simp only [if_pos h1]
  · simp only [if_neg h1]
    by_cases h2 : 0 ≤ layer.scale * u + layer.biasX ∧ layer.scale * u + layer.biasX ≤ 1 ∧
        0 ≤ layer.scale * v + layer.biasY ∧ layer.scale * v + layer.biasY ≤ 1
    · simp only [if_pos h2]
      by_cases h3 : layer.read (layer.scale * u + layer.biasX)
          (layer.scale * v + layer.biasY) ≠ NO_DATA_VALUE
      · simp only [if_pos h3]
        by_cases h4 : layer.read (layer.scale * u + layer.biasX)
            (layer.scale * v + layer.biasY) < 1
        · simp only [if_pos h4]
        · simp only [if_neg h4, ite_and]
      · simp only [if_neg h3]
    · simp only [if_neg h2]

theorem lookupCommit_out_of_range (cm : CodeMap) (code : ℤ)
    (h : ¬ (0 ≤ code ∧ code.toNat < cm.length)) :
    lookupCommit cm code = none := by
  simp [lookupCommit, h]

theorem sampleLoop_shift (T : ℕ) (hT : 2 ≤ T) :
    ∀ (m k : ℕ), k + m = T →
      sampleLoop (1 / ((T : ℚ) - 1)) ((k : ℚ) / ((T : ℚ) - 1)) (m + 1) =
        (List.range m).map (fun j => ((k + j : ℕ) : ℚ) / ((T : ℚ) - 1)) := by
  have hT1 : (0 : ℚ) < (T : ℚ) - 1 := by
    have : (2 : ℚ) ≤ (T : ℚ) := by exact_mod_cast hT
    linarith
  intro m
  induction m with
  | zero =>
    intro k hk
    simp only [Nat.add_zero] at hk
    subst hk
    simp only [List.range_zero, List.map_nil, sampleLoop]
    rw [if_neg]
    intro hc
    rw [div_le_one hT1] at hc
    linarith
  | succ m ih =>
    intro k hk
    have hk1 : (k : ℚ) ≤ (T : ℚ) - 1 := by
      have : k + 1 ≤ T := by omega
      have : (k : ℚ) + 1 ≤ (T : ℚ) := by exact_mod_cast this
      linarith
    have hle : (k : ℚ) / ((T : ℚ) - 1) ≤ 1 := by
      rw [div_le_one hT1]; exact hk1
    show sampleLoop _ _ (m + 1 + 1) = _
    rw [sampleLoop, if_pos hle]
    have hstep : (k : ℚ) / ((T : ℚ) - 1) + 1 / ((T : ℚ) - 1) =
        ((k + 1 : ℕ) : ℚ) / ((T : ℚ) - 1) := by
      rw [div_add_div_same]; push_cast; ring
    rw [hstep, ih (k + 1) (by omega)]
    rw [List.range_succ_eq_map m, List.map_cons, List.map_map]
    refine List.cons_eq_cons.mpr ⟨by norm_num, ?_⟩
    apply List.map_congr_left
    intro j _
    simp only [Function.comp_apply]
    have h2 : k + 1 + j = k + j.succ := by omega
    rw [h2]

theorem uSamples_eq_range_map (T : ℕ) (hT : 2 ≤ T) :
    uSamples T = (List.range T).map (fun k => ((k : ℕ) : ℚ) / ((T : ℚ) - 1)) := by
  have h := sampleLoop_shift T hT T 0 (by omega)
  simp only [Nat.cast_zero, zero_div, Nat.zero_add] at h
  rw [uSamples, h]

theorem uSamples_mem_bounds (T : ℕ) (hT : 2 ≤ T) :
    ∀ x ∈ uSamples T, 0 ≤ x ∧ x ≤ 1 := by
  have hT1 : (0 : ℚ) < (T : ℚ) - 1 := by
    have : (2 : ℚ) ≤ (T : ℚ) := by exact_mod_cast hT
    linarith
  intro x hx
  rw [uSamples_eq_range_map T hT] at hx
  simp only [List.mem_map, List.mem_range] at hx
  obtain ⟨k, hk, rfl⟩ := hx
  constructor
  · positivity
  · rw [div_le_one hT1]
    have : k + 1 ≤ T := hk
    have : (k : ℚ) + 1 ≤ (T : ℚ) := by exact_mod_cast this
    linarith

theorem flatMap_grid_length (us vs : List ℚ) (f : ℚ → ℚ → ℚ × ℚ × ℚ) :
    (us.flatMap fun u => vs.map fun v => f u v).length = us.length * vs.length := by
  induction us with
  | nil => simp
  | cons u rest ih =>
    show ((vs.map fun v => f u v) ++ rest.flatMap fun u => vs.map fun v => f u v).length = _
    rw [List.length_append, List.length_map, ih, List.length_cons]
    ring

theorem flatMap_grid_nodup (us vs : List ℚ) (hu : us.Nodup) (hv : vs.Nodup) :
    (us.flatMap fun u => vs.map fun v => (u, v)).Nodup := by
  induction us with
  | nil => simp
  | cons u rest ih =>
    show ((vs.map fun v => (u, v)) ++ rest.flatMap fun u => vs.map fun v => (u, v)).Nodup
    have hu1 : u ∉ rest := (List.nodup_cons.mp hu).1
    have hu2 : rest.Nodup := (List.nodup_cons.mp hu).2
    apply List.Nodup.append
    · exact hv.map fun a b hab => (Prod.mk.injEq u a u b).mp hab |>.2
    · exact ih hu2
    · intro p hp hp2
      simp only [List.mem_map] at hp
      obtain ⟨v, -, rfl⟩ := hp
      simp only [List.mem_flatMap, List.mem_map] at hp2
      obtain ⟨u', hu', v', -, hv'⟩ := hp2
      have : u' = u := (Prod.mk.injEq u' v' u v).mp hv' |>.1
      exact hu1 (this ▸ hu')

theorem codemap_fold_length (d : Dictionary) (ms : List LandCoverValueMapping) :
    ∀ cm : CodeMap,
      (ms.foldl (fun cm m =>
        match d m.className with
        | some code => cm.set m.value.toNat code
        | none => cm) cm).length = cm.length := by
  induction ms with
  | nil => intro cm; rfl
  | cons m rest ih =>
    intro cm
    rw [List.foldl_cons]
    rcases hd : d m.className with - | c <;> simp only [hd]
    · exact ih cm
    · rw [ih (cm.set m.value.toNat c), List.length_set]

theorem codemap_fold_untouched (d : Dictionary) (ms : List LandCoverValueMapping)
    (i : ℕ) :
    ∀ cm : CodeMap, (∀ m ∈ ms, m.value.toNat ≠ i) →
      (ms.foldl (fun cm m =>
        match d m.className with
        | some code => cm.set m.value.toNat code
        | none => cm) cm)[i]? = cm[i]? := by
  induction ms with
  | nil => intro cm _; rfl
  | cons m rest ih =>
    intro cm h
    rw [List.foldl_cons]
    rcases hd : d m.className with - | c <;> simp only [hd]
    · exact ih cm fun m' hm' => h m' (List.mem_cons_of_mem _ hm')
    · rw [ih _ fun m' hm' => h m' (List.mem_cons_of_mem _ hm'),
        List.getElem?_set_ne (h m (List.mem_cons_self _ _))]

theorem fold_highest_ge_init (ms : List LandCoverValueMapping) :
    ∀ hv : ℤ, hv ≤ ms.foldl (fun hv m => if m.value > hv then m.value else hv) hv := by
  induction ms with
  | nil => intro hv; exact le_refl hv
  | cons m rest ih =>
    intro hv
    rw [List.foldl_cons]
    refine le_trans ?_ (ih _)
    by_cases h : m.value > hv
    · simp [h]; omega
    · simp [h]

theorem fold_highest_ge_mem (ms : List LandCoverValueMapping) :
    ∀ hv : ℤ, ∀ m ∈ ms,
      m.value ≤ ms.foldl (fun hv m => if m.value > hv then m.value else hv) hv := by
  induction ms with
  | nil => intro hv m hm; exact absurd hm (List.not_mem_nil m)
  | cons m0 rest ih =>
    intro hv m hm
    rw [List.foldl_cons]
    rcases List.mem_cons.mp hm with rfl | hm'
    · refine le_trans ?_ (fold_highest_ge_init rest _)
      by_cases h : m.value > hv
      · simp [h]
      · simp [h]; omega
    · exact ih _ m hm'

theorem fold_highest_le (ms : List LandCoverValueMapping) :
    ∀ hv B : ℤ, hv ≤ B → (∀ m ∈ ms, m.value ≤ B) →
      ms.foldl (fun hv m => if m.value > hv then m.value else hv) hv ≤ B := by
  induction ms with
  | nil => intro hv B h _; exact h
  | cons m rest ih =>
    intro hv B h hall
    rw [List.foldl_cons]
    refine ih _ B ?_ fun m' hm' => hall m' (List.mem_cons_of_mem _ hm')
    by_cases hc : m.value > hv
    · simpa [hc] using hall m (List.mem_cons_self _ _)
    · simpa [hc] using h

theorem codemap_fold_at_mapping (d : Dictionary) (ms : List LandCoverValueMapping) :
    ∀ cm : CodeMap, ∀ m ∈ ms, (ms.map fun m => m.value).Nodup →
      (∀ m' ∈ ms, 0 ≤ m'.value) → m.value.toNat < cm.length →
      (ms.foldl (fun cm m =>
        match d m.className with
        | some code => cm.set m.value.toNat code
        | none => cm) cm)[m.value.toNat]? =
        match d m.className with
        | some c => some c
        | none => cm[m.value.toNat]? := by
  induction ms with
  | nil => intro cm m hm; exact absurd hm (List.not_mem_nil m)
  | cons m0 rest ih =>
    intro cm m hm hnodup hpos hlen
    have hnodup' : (rest.map fun m => m.value).Nodup :=
      (List.nodup_cons.mp hnodup).2
    have hm0notin : m0.value ∉ rest.map fun m => m.value :=
      (List.nodup_cons.mp hnodup).1
    rw [List.foldl_cons]
    rcases List.mem_cons.mp hm with rfl | hm'
    · -- the head mapping: its own step applies, the tail never touches it
      have huntouched : ∀ m' ∈ rest, m'.value.toNat ≠ m.value.toNat := by
        intro m' hm' heq
        apply hm0notin
        have h0 : 0 ≤ m'.value := hpos m' (List.mem_cons_of_mem _ hm')
        have h1 : 0 ≤ m.value := hpos m (List.mem_cons_self _ _)
        have : m'.value = m.value := by omega
        rw [← this]
        exact List.mem_map_of_mem _ hm'
      rcases hd : d m.className with - | c <;> simp only [hd]
      · exact codemap_fold_untouched d rest _ cm huntouched
      · rw [codemap_fold_untouched d rest _ _ huntouched,
          List.getElem?_set_self hlen]
    · -- a tail mapping: the head's step does not touch its slot
      have hne : m0.value.toNat ≠ m.value.toNat := by
        intro heq
        apply hm0notin
        have h0 : 0 ≤ m0.value := hpos m0 (List.mem_cons_self _ _)
        have h1 : 0 ≤ m.value := hpos m (List.mem_cons_of_mem _ hm')
        have : m0.value = m.value := by omega
        rw [this]
        exact List.mem_map_of_mem _ hm'
      have hpos' : ∀ m' ∈ rest, 0 ≤ m'.value :=
        fun m' h => hpos m' (List.mem_cons_of_mem _ h)
      rcases hd : d m0.className with - | c <;> simp only [hd]
      · exact ih cm m hm' hnodup' hpos' hlen
      · rw [ih (cm.set m0.value.toNat c) m hm' hnodup' hpos'
          (by rwa [List.length_set])]
        rcases hdm : d m.className with - | cm2 <;> simp only
        · rw [List.getElem?_set_ne hne]

theorem parentIter_eq (d : ℕ) : ∀ k : TileKey,
    parentIter d k =
      if d ≤ k.lod then some ⟨k.lod - d, k.x / 2 ^ d, k.y / 2 ^ d⟩ else none := by
  induction d with
  | zero =>
    intro k
    rcases k with ⟨lod, x, y⟩
    simp [parentIter]
  | succ d ih =>
    intro k
    rcases k with ⟨lod, x, y⟩
    rw [parentIter, TileKey.createParentKey]
    by_cases hl : lod = 0
    · subst hl
      simp
    · simp only [hl, if_false]
      rw [ih]
      simp only
      by_cases hd : d + 1 ≤ lod
      · rw [if_pos (by omega : d ≤ lod - 1), if_pos hd]
        have e1 : lod - 1 - d = lod - (d + 1) := by omega
        have e2 : x / 2 / 2 ^ d = x / 2 ^ (d + 1) := by
          rw [Nat.div_div_eq_div_mul]
          congr 1
          rw [pow_succ]
          ring
        have e3 : y / 2 / 2 ^ d = y / 2 ^ (d + 1) := by
          rw [Nat.div_div_eq_div_mul]
          congr 1
          rw [pow_succ]
          ring
        rw [e1, e2, e3]
      · rw [if_neg (by omega : ¬ d ≤ lod - 1), if_neg hd]

theorem iterZero_self (k : TileKey) :
    (⟨k.lod - 0, k.x / 2 ^ 0, k.y / 2 ^ 0⟩ : TileKey) = k := by
  rcases k with ⟨lod, x, y⟩
  simp

theorem climb_none_spec (provider : TileKey → Option GeoImage) :
    ∀ (n : ℕ) (k : TileKey), k.lod ≤ n → climb provider k = none →
      ∀ (e : ℕ) (k' : TileKey), parentIter e k = some k' →
        provider k' = none := by
  intro n
  induction n with
  | zero =>
    intro k hk h e k' hp
    rcases hprov : provider k with - | img
    · rw [parentIter_eq] at hp
      split_ifs at hp with hcond
      · have he : e = 0 := by omega
        subst he
        injection hp with hp
        rw [← hp, iterZero_self]
        exact hprov
    · rw [climb, hprov] at h
      exact absurd h (by simp)
  | succ n ih =>
    intro n2
    intro hk h e k' hp
    rcases hprov : provider n2 with - | img
    · by_cases hl : n2.lod = 0
      · rw [parentIter_eq] at hp
        split_ifs at hp with hcond
        · have he : e = 0 := by omega
          subst he
          injection hp with hp
          rw [← hp, iterZero_self]
          exact hprov
      · rw [climb, hprov] at h
        rw [dif_neg hl] at h
        rcases e with - | e
        · simp only [parentIter] at hp
          injection hp with hp
          rwa [← hp]
        · rw [parentIter, TileKey.createParentKey, if_neg hl] at hp
          exact ih ⟨n2.lod - 1, n2.x / 2, n2.y / 2⟩
            (by show n2.lod - 1 ≤ n; omega) h e k' hp
    · rw [climb, hprov] at h
      exact absurd h (by simp)

theorem climb_some_spec (provider : TileKey → Option GeoImage) :
    ∀ (n : ℕ) (k : TileKey), k.lod ≤ n →
      ∀ (A : TileKey) (img : GeoImage), climb provider k = some (A, img) →
      ∃ d : ℕ, parentIter d k = some A ∧ provider A = some img ∧
        ∀ (e : ℕ) (k' : TileKey), e < d → parentIter e k = some k' →
          provider k' = none := by
  intro n
  induction n with
  | zero =>
    intro k hk A img h
    rcases hprov : provider k with - | img0
    · rw [climb, hprov] at h
      rw [dif_pos (by omega)] at h
      exact absurd h (by simp)
    · rw [climb, hprov] at h
      injection h with h
      refine ⟨0, ?_, ?_, fun e k' he _ => absurd he (by omega)⟩
      · rw [parentIter]
        rw [show A = k from (congrArg Prod.fst h).symm]
      · rw [show A = k from (congrArg Prod.fst h).symm, hprov,
          show img0 = img from congrArg Prod.snd h]
  | succ n ih =>
    intro k hk A img h
    rcases hprov : provider k with - | img0
    · by_cases hl : k.lod = 0
      · rw [climb, hprov, dif_pos hl] at h
        exact absurd h (by simp)
      · rw [climb, hprov, dif_neg hl] at h
        obtain ⟨d, hpd, hpA, hnone⟩ :=
          ih ⟨k.lod - 1, k.x / 2, k.y / 2⟩ (by show k.lod - 1 ≤ n; omega) A img h
        refine ⟨d + 1, ?_, hpA, ?_⟩
        · rw [parentIter, TileKey.createParentKey, if_neg hl]
          exact hpd
        · intro e k' he hp
          rcases e with - | e
          · simp only [parentIter] at hp
            injection hp with hp
            rwa [← hp]
          · rw [parentIter, TileKey.createParentKey, if_neg hl] at hp
            exact hnone e k' (by omega) hp
    · rw [climb, hprov] at h
      injection h with h
      refine ⟨0, ?_, ?_, fun e k' he _ => absurd he (by omega)⟩
      · rw [parentIter]
        rw [show A = k from (congrArg Prod.fst h).symm]
      · rw [show A = k from (congrArg Prod.fst h).symm, hprov,
          show img0 = img from congrArg Prod.snd h]

theorem affine_unit_bounds (d : ℕ) (m : ℕ) (hm : m < 2 ^ d) (u : ℚ)
    (h0 : 0 ≤ u) (h1 : u ≤ 1) :
    0 ≤ (1 / (2 : ℚ) ^ d) * u + (m : ℚ) / 2 ^ d ∧
    (1 / (2 : ℚ) ^ d) * u + (m : ℚ) / 2 ^ d ≤ 1 := by
  have hp : (0 : ℚ) < 2 ^ d := by positivity
  have hm1 : (m : ℚ) + 1 ≤ (2 : ℚ) ^ d := by
    have := Nat.succ_le_of_lt hm
    exact_mod_cast this
  constructor
  · positivity
  · have hrw : (1 / (2 : ℚ) ^ d) * u + (m : ℚ) / 2 ^ d = (u + m) / 2 ^ d := by
      ring
    rw [hrw, div_le_one hp]
    linarith

theorem ancestor_transform (P : Profile) (hw : P.w ≠ 0) (hh : P.h ≠ 0)
    (key A : TileKey) (d : ℕ) (hd : parentIter d key = some A) :
    d ≤ key.lod
  ∧ TileKey.extentWidth P key / TileKey.extentWidth P A = 1 / 2 ^ d
  ∧ (TileKey.extentXMin P key - TileKey.extentXMin P A) / TileKey.extentWidth P A
      = ((key.x % 2 ^ d : ℕ) : ℚ) / 2 ^ d
  ∧ (TileKey.extentYMin P key - TileKey.extentYMin P A) / TileKey.extentHeight P A
      = ((key.y % 2 ^ d : ℕ) : ℚ) / 2 ^ d := by
  rw [parentIter_eq] at hd
  split_ifs at hd with hdl
  injection hd with hd
  subst hd
  have hpow : ((2 : ℚ)) ^ key.lod = 2 ^ (key.lod - d) * 2 ^ d := by
    rw [← pow_add]
    congr 1
    omega
  have h2e : ((2 : ℚ)) ^ (key.lod - d) ≠ 0 := pow_ne_zero _ two_ne_zero
  have h2d : ((2 : ℚ)) ^ d ≠ 0 := pow_ne_zero _ two_ne_zero
  have hx : ((key.x : ℚ)) =
      2 ^ d * ((key.x / 2 ^ d : ℕ) : ℚ) + ((key.x % 2 ^ d : ℕ) : ℚ) := by
    exact_mod_cast (Nat.div_add_mod key.x (2 ^ d)).symm
  have hy : ((key.y : ℚ)) =
      2 ^ d * ((key.y / 2 ^ d : ℕ) : ℚ) + ((key.y % 2 ^ d : ℕ) : ℚ) := by
    exact_mod_cast (Nat.div_add_mod key.y (2 ^ d)).symm
  refine ⟨hdl, ?_, ?_, ?_⟩
  · rw [TileKey.extentWidth, TileKey.extentWidth]
    simp only
    rw [hpow]
    field_simp
    ring
  · rw [TileKey.extentXMin, TileKey.extentXMin, TileKey.extentWidth]
    simp only
    rw [hpow, hx]
    field_simp
    ring
  · rw [TileKey.extentYMin, TileKey.extentYMin, TileKey.extentHeight]
    simp only
    rw [hpow, hy]
    field_simp
    ring

/- ## Claims -/

/-- Claim C1: the committed value of a composited pixel is the translated
code of the highest-priority coverage (highest index, scanned first) whose
mapped coordinate is in `[0,1]²`, whose sample is not no-data, and whose
decoded code is mapped by its code map (`tryLayer` succeeds); every
higher-priority coverage failing one of these tests is passed over. In
particular a higher-priority coverage mapping raw 1 to 7 beats a
lower-priority one mapping raw 1 to 99, and a no-data or unmapped sample
of the higher-priority coverage falls back to the lower one's 99. -/
theorem claim1_priority_scan :
    (∀ (before after : List (ILayer × CodeMap)) (layer : ILayer) (cm : CodeMap)
        (u v val : ℚ),
      tryLayer layer cm u v = some val →
      (∀ p ∈ after, tryLayer p.1 p.2 u v = none) →
      scanPixel (before ++ (layer, cm) :: after) u v = some val ∧
      compositePixel (before ++ (layer, cm) :: after) none u v = val)
  ∧ compositePixel [(constLayer 1, cmLow99), (constLayer 1, cmHigh7)] none 0 0 = 7
  ∧ compositePixel [(constLayer 1, cmLow99), (constLayer NO_DATA_VALUE, cmHigh7)] none 0 0 = 99
  ∧ compositePixel [(constLayer 1, cmLow99), (constLayer 1, cmUnmapped)] none 0 0 = 99 := by
  refine ⟨fun before after layer cm u v val hcommit hafter => ?_, ?_, ?_, ?_⟩
  · have hrest : scanPixel ((layer, cm) :: after) u v = some val := by
      rw [scanPixel_cons, scanPixel_eq_none_of after u v hafter, hcommit]
    have hall : scanPixel (before ++ (layer, cm) :: after) u v = some val := by
      rw [scanPixel_append, hrest]
    exact ⟨hall, by simp [compositePixel, hall]⟩
  · norm_num [compositePixel, scanPixel, tryLayer, constLayer, cmHigh7, cmLow99,
      NO_DATA_VALUE, truncInt]
  · norm_num [compositePixel, scanPixel, tryLayer, constLayer, cmHigh7, cmLow99,
      NO_DATA_VALUE, truncInt]
  · norm_num [compositePixel, scanPixel, tryLayer, constLayer, cmUnmapped, cmLow99,
      NO_DATA_VALUE, truncInt]

/-- Claim C1 witness: the general scan statement applied at a concrete
two-coverage stack. -/
theorem claim1_priority_scan_witness :
    scanPixel ([(constLayer 1, cmLow99)] ++ [(constLayer 1, cmHigh7)]) 0 0 = some 7 ∧
    compositePixel ([(constLayer 1, cmLow99)] ++ [(constLayer 1, cmHigh7)]) none 0 0 = 7 :=
  claim1_priority_scan.1 [(constLayer 1, cmLow99)] [] (constLayer 1) cmHigh7 0 0 7
    (by norm_num [tryLayer, constLayer, cmHigh7, NO_DATA_VALUE, truncInt])
    (by intro p hp; simp at hp)

/-- Claim C2: the output raster is the fixed configured `T×T` tile size;
the loop step is `du = dv = 1/(T-1)` (the samples are `k/(T-1)` for
`k = 0..T-1`); each of `u`,`v` visits exactly `T` distinct samples from 0
to 1 inclusive; and every one of the `T×T` texels is written exactly once,
with either a committed code or the no-data sentinel. -/
theorem claim2_tile_grid (T : ℕ) (hT : 2 ≤ T) (pairs : List (ILayer × CodeMap))
    (bits : Option ℕ) :
    uSamples T = (List.range T).map (fun k : ℕ => (k : ℚ) / ((T : ℚ) - 1))
  ∧ (uSamples T).length = T
  ∧ (uSamples T).Nodup
  ∧ (uSamples T).head? = some 0
  ∧ (uSamples T).getLast? = some 1
  ∧ (∀ x ∈ uSamples T, 0 ≤ x ∧ x ≤ 1)
  ∧ (compositeRaster pairs bits T).length = T * T
  ∧ ((compositeRaster pairs bits T).map fun e => (e.1, e.2.1)).Nodup
  ∧ (∀ e ∈ compositeRaster pairs bits T,
      (∃ val, scanPixel pairs e.1 e.2.1 = some val ∧ e.2.2 = val) ∨
      (scanPixel pairs e.1 e.2.1 = none ∧ e.2.2 = nodataFor bits)) := by
  have hT1 : (0 : ℚ) < (T : ℚ) - 1 := by
    have : (2 : ℚ) ≤ (T : ℚ) := by exact_mod_cast hT
    linarith
  have hne : ((T : ℚ) - 1) ≠ 0 := ne_of_gt hT1
  have hrange := uSamples_eq_range_map T hT
  have hlen : (uSamples T).length = T := by rw [hrange]; simp
  have hnodup : (uSamples T).Nodup := by
    rw [hrange]
    refine List.Nodup.map ?_ (List.nodup_range T)
    intro a b hab
    field_simp at hab
    exact_mod_cast hab
  obtain ⟨n, rfl⟩ : ∃ n, T = n + 2 := ⟨T - 2, by omega⟩
  have hone : ((n : ℚ) + 2) - 1 = (n : ℚ) + 1 := by ring
  refine ⟨hrange, hlen, hnodup, ?_, ?_, uSamples_mem_bounds _ hT, ?_, ?_, ?_⟩
  · rw [hrange, List.range_succ_eq_map (n + 1), List.map_cons]
    norm_num
  · rw [hrange, List.range_succ (n + 1), List.map_append]
    simp only [List.map_cons, List.map_nil]
    rw [List.getLast?_concat]
    push_cast
    rw [hone, div_self (by positivity)]
  · rw [compositeRaster, flatMap_grid_length, hlen]
  · have hcoords : ((compositeRaster pairs bits (n + 2)).map fun e => (e.1, e.2.1)) =
        (uSamples (n + 2)).flatMap fun u => (uSamples (n + 2)).map fun v => (u, v) := by
      rw [compositeRaster, List.map_flatMap]
      simp only [List.map_map]
      rfl
    rw [hcoords]
    exact flatMap_grid_nodup _ _ hnodup hnodup
  · intro e he
    simp only [compositeRaster, List.mem_flatMap, List.mem_map] at he
    obtain ⟨u, -, v, -, rfl⟩ := he
    simp only
    rcases hscan : scanPixel pairs u v with - | val
    · exact Or.inr ⟨rfl, by simp [compositePixel, hscan]⟩
    · exact Or.inl ⟨val, rfl, by simp [compositePixel, hscan]⟩

/-- Claim C2 witness: the grid statement applied at `T = 4`. -/
theorem claim2_tile_grid_witness :
    2 ≤ 4 ∧ (uSamples 4).length = 4 ∧ (compositeRaster [] none 4).length = 4 * 4 :=
  ⟨by norm_num, (claim2_tile_grid 4 (by norm_num) [] none).2.1,
   (claim2_tile_grid 4 (by norm_num) [] none).2.2.2.2.2.2.1⟩

/-- Claim C3 counterexample: the decode step does not round. At the
unnormalized raw texel value `5.9` the code truncates to 5 and commits the
table entry for 5 (here 50), while the claim's `round(v)` semantics gives
6 and would commit the entry for 6 (here 60). -/
theorem claim3_rounding_counterexample :
    (1 : ℚ) ≤ 59 / 10
  ∧ decode (59 / 10) = 5
  ∧ round ((59 : ℚ) / 10) = 6
  ∧ tryLayer (constLayer (59 / 10)) cmFiveSix 0 0 = some 50
  ∧ lookupCommit cmFiveSix (round ((59 : ℚ) / 10)) = some 60 := by
  refine ⟨by norm_num, by norm_num [decode, truncInt], by norm_num [round_eq], ?_, ?_⟩
  · norm_num [tryLayer, constLayer, cmFiveSix, NO_DATA_VALUE, truncInt]
    decide
  · norm_num [lookupCommit, round_eq, cmFiveSix]
    decide

/-- Claim C3 (amended): for every sampled raw texel value that is not the
no-data value, a value `< 1.0` is classified as normalized and converted
to the integer code `trunc(v*255)` (truncation toward zero, the C `(int)`
cast — not rounding), and a value `≥ 1.0` is classified as unnormalized
and converted to `trunc(v)`; on non-negative values the truncation is the
floor. The normalized round-trip of integer codes is exact: `n/255`
decodes to `n` for `0 ≤ n ≤ 254`, and a literal integer `n ≥ 1` decodes
to `n`, and the decoded code is what the per-coverage step feeds to the
translation lookup. -/
theorem claim3_decode_truncates :
    (∀ texel : ℚ, 1 ≤ texel → decode texel = ⌊texel⌋)
  ∧ (∀ texel : ℚ, 0 ≤ texel → texel < 1 → decode texel = ⌊texel * 255⌋)
  ∧ (∀ n : ℤ, 0 ≤ n → n ≤ 254 → decode ((n : ℚ) / 255) = n)
  ∧ (∀ n : ℤ, 1 ≤ n → decode ((n : ℚ)) = n)
  ∧ (∀ (layer : ILayer) (cm : CodeMap) (u v : ℚ), layer.valid = true →
      (0 ≤ layer.scale * u + layer.biasX ∧ layer.scale * u + layer.biasX ≤ 1 ∧
       0 ≤ layer.scale * v + layer.biasY ∧ layer.scale * v + layer.biasY ≤ 1) →
      layer.read (layer.scale * u + layer.biasX) (layer.scale * v + layer.biasY)
        ≠ NO_DATA_VALUE →
      tryLayer layer cm u v =
        lookupCommit cm (decode (layer.read (layer.scale * u + layer.biasX)
          (layer.scale * v + layer.biasY)))) := by
  have hfloor : ∀ t : ℚ, 1 ≤ t → decode t = ⌊t⌋ := by
    intro t ht
    rw [decode, if_neg (not_lt.mpr ht), truncInt,
      if_pos (le_trans zero_le_one ht)]
  refine ⟨hfloor, fun t ht0 ht1 => ?_, fun n hn0 hn1 => ?_, fun n hn => ?_,
    fun layer cm u v hval hbounds hnd => ?_⟩
  · rw [decode, if_pos ht1, truncInt, if_pos (by positivity)]
  · have hlt : (n : ℚ) / 255 < 1 := by
      rw [div_lt_one (by norm_num)]
      exact_mod_cast lt_of_le_of_lt hn1 (by norm_num)
    have hcancel : (n : ℚ) / 255 * 255 = (n : ℚ) := by
      field_simp
    rw [decode, if_pos hlt, hcancel, truncInt, if_pos (by exact_mod_cast hn0),
      Int.floor_intCast]
  · have h1 : (1 : ℚ) ≤ (n : ℚ) := by exact_mod_cast hn
    rw [hfloor _ h1, Int.floor_intCast]
  · rw [tryLayer_eq_commit]
    simp only [hval, Bool.true_eq_false, if_false, if_pos hbounds, if_pos hnd]

/-- Claim C3 witness: the amended decode statement applied at raw code 5
in both encodings — the spec's round-trip scenario. -/
theorem claim3_decode_truncates_witness :
    decode (((5 : ℤ) : ℚ) / 255) = (5 : ℤ) ∧ decode (((5 : ℤ) : ℚ)) = (5 : ℤ) :=
  ⟨claim3_decode_truncates.2.2.1 5 (by norm_num) (by norm_num),
   claim3_decode_truncates.2.2.2.1 5 (by norm_num)⟩

/-- Claim C5: resolution walks from the requested address up through
parents until the provider yields an image (all strictly closer ancestors
having failed) or no ancestor remains (absent); on success at address `A`
the binding transform is `scale = extentWidth(key)/extentWidth(A)`,
`bias.x = (xMin(key)-xMin(A))/extentWidth(A)`,
`bias.y = (yMin(key)-yMin(A))/extentHeight(A)`; and under the nested
addressing scheme `scale = 1/2^d ∈ (0,1]` and the mapped child square
stays inside the ancestor's unit square. -/
theorem claim5_ancestor_walk (src : CoverageSource) (P : Profile) (key : TileKey)
    (honest : ∀ (k : TileKey) (img : GeoImage), src.createImage k = some img →
      img.extXMin = TileKey.extentXMin P k ∧ img.extYMin = TileKey.extentYMin P k ∧
      img.extWidth = TileKey.extentWidth P k ∧ img.extHeight = TileKey.extentHeight P k)
    (hguard : (src.enabled && src.visible && src.inLegalRange key) = true)
    (hw : P.w ≠ 0) (hh : P.h ≠ 0) :
    (climb src.createImage key = none →
      (ILayer.load src P key).valid = false ∧
      ∀ (e : ℕ) (k' : TileKey), parentIter e key = some k' →
        src.createImage k' = none)
  ∧ (∀ (A : TileKey) (img : GeoImage), climb src.createImage key = some (A, img) →
      ∃ d : ℕ, d ≤ key.lod ∧ parentIter d key = some A
        ∧ src.createImage A = some img
        ∧ (∀ (e : ℕ) (k' : TileKey), e < d → parentIter e key = some k' →
            src.createImage k' = none)
        ∧ (ILayer.load src P key).scale
            = TileKey.extentWidth P key / TileKey.extentWidth P A
        ∧ (ILayer.load src P key).biasX
            = (TileKey.extentXMin P key - TileKey.extentXMin P A)
              / TileKey.extentWidth P A
        ∧ (ILayer.load src P key).biasY
            = (TileKey.extentYMin P key - TileKey.extentYMin P A)
              / TileKey.extentHeight P A
        ∧ (ILayer.load src P key).scale = 1 / 2 ^ d
        ∧ 0 < (ILayer.load src P key).scale
        ∧ (ILayer.load src P key).scale ≤ 1
        ∧ (∀ u : ℚ, 0 ≤ u → u ≤ 1 →
            0 ≤ (ILayer.load src P key).scale * u + (ILayer.load src P key).biasX ∧
            (ILayer.load src P key).scale * u + (ILayer.load src P key).biasX ≤ 1)
        ∧ (∀ v : ℚ, 0 ≤ v → v ≤ 1 →
            0 ≤ (ILayer.load src P key).scale * v + (ILayer.load src P key).biasY ∧
            (ILayer.load src P key).scale * v + (ILayer.load src P key).biasY ≤ 1)) := by
  constructor
  · intro hclimb
    constructor
    · simp only [ILayer.load, hguard, if_true, hclimb]
    · exact climb_none_spec src.createImage key.lod key le_rfl hclimb
  · intro A img hclimb
    obtain ⟨d, hpd, hpA, hnone⟩ :=
      climb_some_spec src.createImage key.lod key le_rfl A img hclimb
    obtain ⟨hdle, hscaleEq, hbxEq, hbyEq⟩ := ancestor_transform P hw hh key A d hpd
    obtain ⟨hxm, hym, hwid, hhei⟩ := honest A img hpA
    have hSA : (ILayer.load src P key).scale
        = TileKey.extentWidth P key / TileKey.extentWidth P A := by
      simp only [ILayer.load, hguard, if_true, hclimb, hwid]
    have hBXA : (ILayer.load src P key).biasX
        = (TileKey.extentXMin P key - TileKey.extentXMin P A)
          / TileKey.extentWidth P A := by
      simp only [ILayer.load, hguard, if_true, hclimb, hwid, hxm]
    have hBYA : (ILayer.load src P key).biasY
        = (TileKey.extentYMin P key - TileKey.extentYMin P A)
          / TileKey.extentHeight P A := by
      simp only [ILayer.load, hguard, if_true, hclimb, hhei, hym]
    have hS : (ILayer.load src P key).scale = 1 / 2 ^ d := by
      rw [hSA, hscaleEq]
    have hBX : (ILayer.load src P key).biasX = ((key.x % 2 ^ d : ℕ) : ℚ) / 2 ^ d := by
      rw [hBXA, hbxEq]
    have hBY : (ILayer.load src P key).biasY = ((key.y % 2 ^ d : ℕ) : ℚ) / 2 ^ d := by
      rw [hBYA, hbyEq]
    have hpow2 : (0 : ℕ) < 2 ^ d := Nat.pos_pow_of_pos d (by norm_num)
    have hp2q : (0 : ℚ) < 2 ^ d := by positivity
    refine ⟨d, hdle, hpd, hpA, hnone, hSA, hBXA, hBYA, hS, ?_, ?_, ?_, ?_⟩
    · rw [hS]; positivity
    · rw [hS]
      rw [div_le_one hp2q]
      exact one_le_pow₀ (by norm_num)
    · intro u h0 h1
      rw [hS, hBX]
      exact affine_unit_bounds d (key.x % 2 ^ d) (Nat.mod_lt _ hpow2) u h0 h1
    · intro v h0 h1
      rw [hS, hBY]
      exact affine_unit_bounds d (key.y % 2 ^ d) (Nat.mod_lt _ hpow2) v h0 h1

/-- Claim C5 witness: the resolution statement applied to a level-1 tile
over a coverage with data only at the root: the ancestor walk resolves the
root image and the derived scale is `1/2`. -/
theorem claim5_ancestor_walk_witness :
    (ILayer.load covRootOnly P0 childKey).scale = 1 / 2 ∧
    0 < (ILayer.load covRootOnly P0 childKey).scale := by
  have honest : ∀ (k : TileKey) (img : GeoImage),
      covRootOnly.createImage k = some img →
      img.extXMin = TileKey.extentXMin P0 k ∧ img.extYMin = TileKey.extentYMin P0 k ∧
      img.extWidth = TileKey.extentWidth P0 k ∧
      img.extHeight = TileKey.extentHeight P0 k := by
    intro k img h
    simp only [covRootOnly] at h
    split_ifs at h with hc
    · obtain ⟨h0, h1, h2⟩ := hc
      injection h with h
      subst h
      rcases k with ⟨lod, x, y⟩
      simp only at h0 h1 h2
      subst h0
      subst h1
      subst h2
      norm_num [unitImage, TileKey.extentXMin, TileKey.extentYMin,
        TileKey.extentWidth, TileKey.extentHeight, P0]
  have hclimb : climb covRootOnly.createImage childKey = some (rootKey, unitImage) := by
    rw [climb]
    have h1 : covRootOnly.createImage childKey = none := rfl
    rw [h1]
    simp only [childKey]
    rw [dif_neg (by norm_num)]
    rw [climb]
    have h2 : covRootOnly.createImage ⟨1 - 1, 0 / 2, 1 / 2⟩ = some unitImage := rfl
    rw [h2]
    rfl
  obtain ⟨d, hdle, hpd, hpA, hnone, hSA, hBXA, hBYA, hS, hpos, hle, hbu, hbv⟩ :=
    (claim5_ancestor_walk covRootOnly P0 childKey honest rfl
      (by norm_num [P0]) (by norm_num [P0])).2 rootKey unitImage hclimb
  refine ⟨?_, hpos⟩
  rw [hSA]
  norm_num [TileKey.extentWidth, P0, childKey, rootKey]

/-- Claim C6: with a dictionary present, the built code map has length
`maxRaw+1` (`maxRaw` the highest rawValue across the mappings, all
rawValues being non-negative), is `-1` (unmapped) at every index no
mapping names, holds the canonical dictionary code at each mapping whose
class name resolves and `-1` at each mapping whose class name does not;
with the dictionary absent the build leaves the table empty. -/
theorem claim6_code_map_build (d : Dictionary) (ms : List LandCoverValueMapping)
    (maxRaw : ℤ)
    (hpos : ∀ m ∈ ms, 0 ≤ m.value)
    (hmem : maxRaw ∈ ms.map fun m => m.value)
    (hmax : ∀ m ∈ ms, m.value ≤ maxRaw) :
    buildCodeMap none ms = []
  ∧ ((buildCodeMap (some d) ms).length : ℤ) = maxRaw + 1
  ∧ (∀ i : ℕ, (i : ℤ) ≤ maxRaw → (∀ m ∈ ms, m.value ≠ (i : ℤ)) →
      (buildCodeMap (some d) ms)[i]? = some (-1))
  ∧ ((ms.map fun m => m.value).Nodup →
      ∀ m ∈ ms, (buildCodeMap (some d) ms)[m.value.toNat]? =
        match d m.className with
        | some c => some c
        | none => some (-1)) := by
  have hmaxnn : 0 ≤ maxRaw := by
    simp only [List.mem_map] at hmem
    obtain ⟨m, hm, rfl⟩ := hmem
    exact hpos m hm
  have hfold : ms.foldl (fun hv m => if m.value > hv then m.value else hv) 0
      = maxRaw := by
    refine le_antisymm (fold_highest_le ms 0 maxRaw hmaxnn hmax) ?_
    simp only [List.mem_map] at hmem
    obtain ⟨m, hm, hmv⟩ := hmem
    rw [← hmv]
    exact fold_highest_ge_mem ms 0 m hm
  have hbuild : buildCodeMap (some d) ms =
      ms.foldl (fun cm m =>
        match d m.className with
        | some code => cm.set m.value.toNat code
        | none => cm) (List.replicate (maxRaw + 1).toNat (-1)) := by
    simp only [buildCodeMap]
    rw [hfold]
  have hbaselen : (List.replicate (maxRaw + 1).toNat (-1 : ℤ)).length
      = (maxRaw + 1).toNat := List.length_replicate _ _
  refine ⟨rfl, ?_, fun i hi hnone => ?_, fun hnodup m hm => ?_⟩
  · rw [hbuild, codemap_fold_length, hbaselen]
    omega
  · have huntouched : ∀ m ∈ ms, m.value.toNat ≠ i := by
      intro m hm heq
      have h0 := hpos m hm
      have h1 := hnone m hm
      omega
    rw [hbuild, codemap_fold_untouched d ms i _ huntouched,
      List.getElem?_replicate]
    rw [if_pos (by omega)]
  · have hlen : m.value.toNat < (List.replicate (maxRaw + 1).toNat (-1 : ℤ)).length := by
      rw [hbaselen]
      have := hpos m hm
      have := hmax m hm
      omega
    rw [hbuild, codemap_fold_at_mapping d ms _ m hm hnodup hpos hlen]
    rcases hd : d m.className with - | c <;> simp only
    rw [List.getElem?_replicate, if_pos (by omega)]

/-- Claim C6 witness: the build statement applied to two concrete
mappings, one resolving and one with an unknown class name. -/
theorem claim6_code_map_build_witness :
    ((buildCodeMap (some dict0) ms0).length : ℤ) = 5 + 1 :=
  (claim6_code_map_build dict0 ms0 5 (by decide) (by decide) (by decide)).2.1

/-- Claim C7: the translation lookup performed during compositing is
bounds-checked: a decoded code at or beyond the table's length (or below
zero, which the source's signed-to-unsigned comparison also rejects) is
treated as unmapped — the lookup yields no commit and the scan falls
through to the next lower-priority coverage — never an out-of-range
access. -/
theorem claim7_lookup_bounds :
    (∀ (cm : CodeMap) (code : ℤ), cm.length ≤ code.toNat ∨ code < 0 →
      lookupCommit cm code = none)
  ∧ (∀ (layer : ILayer) (cm : CodeMap) (u v : ℚ),
      layer.valid = true →
      cm.length ≤ (decode (layer.read (layer.scale * u + layer.biasX)
        (layer.scale * v + layer.biasY))).toNat →
      tryLayer layer cm u v = none)
  ∧ (∀ (pairs : List (ILayer × CodeMap)) (p : ILayer × CodeMap) (u v : ℚ),
      tryLayer p.1 p.2 u v = none →
      scanPixel (pairs ++ [p]) u v = scanPixel pairs u v) := by
  refine ⟨fun cm code h => ?_, fun layer cm u v hval hlen => ?_, fun pairs p u v h => ?_⟩
  · apply lookupCommit_out_of_range
    rintro ⟨hnn, hlt⟩
    rcases h with h | h
    · omega
    · omega
  · rw [tryLayer_eq_commit]
    simp only [hval, Bool.true_eq_false, if_false]
    split_ifs with h1 h2
    · apply lookupCommit_out_of_range
      rintro ⟨-, hlt⟩
      omega
    · rfl
    · rfl
  · obtain ⟨layer, cm⟩ := p
    rw [scanPixel_append, scanPixel_cons]
    simp only [scanPixel] at h ⊢
    rw [h]

/-- Claim C7 witness: the bounds statements applied at concrete inputs. -/
theorem claim7_lookup_bounds_witness :
    lookupCommit cmHigh7 5 = none ∧
    scanPixel ([(constLayer 1, cmLow99)] ++ [(constLayer 5, cmHigh7)]) 0 0 =
      scanPixel [(constLayer 1, cmLow99)] 0 0 :=
  ⟨claim7_lookup_bounds.1 cmHigh7 5 (Or.inl (by norm_num [cmHigh7])),
   claim7_lookup_bounds.2.2 [(constLayer 1, cmLow99)] (constLayer 5, cmHigh7) 0 0
     (by norm_num [tryLayer, constLayer, cmHigh7, NO_DATA_VALUE, truncInt])⟩

/-- Claim C4 counterexample: the visible flag is not irrelevant. A
coverage that is enabled, everywhere in its legal range, and whose
provider has an image for every key, but whose visible flag is off,
yields no binding (and no provider call) — refuting "resolution returns a
binding whenever the coverage is enabled and the address is in range". -/
theorem claim4_visible_counterexample :
    covInvisible.enabled = true
  ∧ covInvisible.inLegalRange rootKey = true
  ∧ covInvisible.createImage rootKey = some unitImage
  ∧ (ILayer.load covInvisible P0 rootKey).valid = false
  ∧ loadCalls covInvisible rootKey = [] :=
  ⟨rfl, rfl, rfl, rfl, rfl⟩

/-- Claim C4 (amended): coverage-binding resolution requires the coverage
to be enabled AND visible AND the tile address in its legal range; if any
of the three fails it returns absent before any provider I/O, and when
all three hold the binding exists exactly when the ancestor walk yields
an image. -/
theorem claim4_binding_preconditions (src : CoverageSource) (P : Profile)
    (key : TileKey) :
    (¬ ((src.enabled && src.visible && src.inLegalRange key) = true) →
      (ILayer.load src P key).valid = false ∧ loadCalls src key = [])
  ∧ ((src.enabled && src.visible && src.inLegalRange key) = true →
      ((ILayer.load src P key).valid = true ↔
        (climb src.createImage key).isSome)) := by
  constructor
  · intro h
    have hb : (src.enabled && src.visible && src.inLegalRange key) = false := by
      simpa using h
    refine ⟨?_, ?_⟩
    · simp only [ILayer.load, hb, Bool.false_eq_true, if_false]
    · simp only [loadCalls, hb, Bool.false_eq_true, if_false]
  · intro h
    simp only [ILayer.load, h, if_true]
    rcases hc : climb src.createImage key with - | ⟨A, img⟩
    · simp
    · simp

/-- Claim C4 witness: with the visible flag on (and enabled, in range),
the binding exists exactly when the walk finds an image. -/
theorem claim4_binding_preconditions_witness :
    (ILayer.load covVisible P0 rootKey).valid = true ↔
      (climb covVisible.createImage rootKey).isSome :=
  (claim4_binding_preconditions covVisible P0 rootKey).2 rfl

/-- Claim C8: with no dictionary ever attached (the initial code maps are
all empty, and `buildCodeMap` without a dictionary leaves a map empty),
every texel of the raster the compositor produces is the no-data
sentinel. -/
theorem claim8_empty_dictionary :
    (∀ n : ℕ, ∀ cm ∈ initialCodemaps n, cm = ([] : CodeMap))
  ∧ (∀ ms : List LandCoverValueMapping, buildCodeMap none ms = [])
  ∧ (∀ pairs : List (ILayer × CodeMap), (∀ p ∈ pairs, p.2 = ([] : CodeMap)) →
      ∀ (bits : Option ℕ) (u v : ℚ), compositePixel pairs bits u v = nodataFor bits)
  ∧ (∀ pairs : List (ILayer × CodeMap), (∀ p ∈ pairs, p.2 = ([] : CodeMap)) →
      ∀ (bits : Option ℕ) (tilesize : ℕ), ∀ e ∈ compositeRaster pairs bits tilesize,
        e.2.2 = nodataFor bits) := by
  have hscan : ∀ pairs : List (ILayer × CodeMap), (∀ p ∈ pairs, p.2 = ([] : CodeMap)) →
      ∀ u v : ℚ, scanPixel pairs u v = none := by
    intro pairs hp u v
    apply scanPixel_eq_none_of
    intro p hmem
    rw [hp p hmem]
    exact tryLayer_empty_map p.1 u v
  refine ⟨fun n cm hcm => ?_, fun ms => rfl, fun pairs hp bits u v => ?_, fun pairs hp bits tilesize e he => ?_⟩
  · simpa [initialCodemaps] using List.eq_of_mem_replicate hcm
  · simp [compositePixel, hscan pairs hp u v]
  · simp only [compositeRaster, List.mem_flatMap, List.mem_map] at he
    obtain ⟨u, -, v, -, rfl⟩ := he
    simp [compositePixel, hscan pairs hp u v]

/-- Claim C8 witness: a stack of one valid layer with an empty code map
produces the 32-bit no-data sentinel. -/
theorem claim8_empty_dictionary_witness :
    compositePixel [(constLayer 1, ([] : CodeMap))] none 0 0 = nodataFor none :=
  claim8_empty_dictionary.2.2.1 [(constLayer 1, [])]
    (by intro p hp; simp at hp; simp [hp]) none 0 0

/-- Claim C9: a pixel no coverage commits receives the precision-specific
no-data sentinel: `-32768` when the `bits` option is set to 16, the
reserved `NO_DATA_VALUE` otherwise. -/
theorem claim9_nodata_sentinel :
    nodataFor (some 16) = -32768
  ∧ (∀ bits : Option ℕ, bits ≠ some 16 → nodataFor bits = NO_DATA_VALUE)
  ∧ (∀ (pairs : List (ILayer × CodeMap)) (bits : Option ℕ) (u v : ℚ),
      scanPixel pairs u v = none → compositePixel pairs bits u v = nodataFor bits) := by
  refine ⟨rfl, fun bits h => ?_, fun pairs bits u v h => ?_⟩
  · simp [nodataFor, h]
  · simp [compositePixel, h]

/-- Claim C9 witness: the sentinel statements applied at concrete inputs. -/
theorem claim9_nodata_sentinel_witness :
    nodataFor (some 32) = NO_DATA_VALUE ∧ compositePixel [] none 0 0 = nodataFor none :=
  ⟨claim9_nodata_sentinel.2.1 (some 32) (by simp),
   claim9_nodata_sentinel.2.2 [] none 0 0 rfl⟩

/-- Claim C10: with an empty list of opened coverages, the tile-composite
entry point returns no image at all for every tile key; with a nonempty
list it always returns a raster. -/
theorem claim10_empty_coverages :
    (∀ (P : Profile) (codemaps : List CodeMap) (bits : Option ℕ) (tilesize : ℕ)
        (key : TileKey), createImage P [] codemaps bits tilesize key = none)
  ∧ (∀ (P : Profile) (coverages : List CoverageSource) (codemaps : List CodeMap)
        (bits : Option ℕ) (tilesize : ℕ) (key : TileKey), coverages ≠ [] →
      (createImage P coverages codemaps bits tilesize key).isSome) := by
  refine ⟨fun P codemaps bits tilesize key => rfl,
    fun P coverages codemaps bits tilesize key h => ?_⟩
  simp [createImage, h]

/-- Claim C10 witness: the nonempty branch applied at a concrete coverage
list. -/
theorem claim10_empty_coverages_witness :
    (createImage P0 [covVisible] [] none 2 rootKey).isSome :=
  claim10_empty_coverages.2 P0 [covVisible] [] none 2 rootKey (by simp)

end LandCover
